import Mathlib

/-!
Verification of the windowed spatial clustering engine of the earthquake
stream consumer (src/consumers/earthquake_consumer_aaron.py).

The Python module keeps a global list of quake dictionaries, filters it to a
rolling-window view on every message, splits the window into an Alaska region
and a main region, runs DBSCAN (sklearn, min_samples = 2) on each region with
the haversine metric, writes the resulting cluster label in place into each
plotted quake dictionary, and draws a covering circle of radius
1.2 * max haversine distance from the cluster centroid around each cluster.

Times are modelled as rational minutes; coordinates and magnitudes as
rationals (Python floats carry exact decimal literals in all inputs we
evaluate).  The DBSCAN neighbour test compares real-valued haversine
distances, which is not computable, so the per-pass definitions are
parameterised by the neighbour predicate the source builds from the metric;
every theorem about a pass is proved for an arbitrary such predicate.
-/

set_option maxHeartbeats 1000000

/-- An element of the global quake list.  Mirrors the dictionary built in
process_message: lon = coordinates[0], lat = coordinates[1], mag, place,
timestamp (stamped with the processing time).  The cluster field models the
"cluster" key that plot_quakes_on_axis writes into the dictionary: none while
the key is absent, some l once the key has been written. -/
structure Quake where
  lon : ℚ
  lat : ℚ
  mag : ℚ
  place : String
  timestamp : ℚ
  cluster : Option ℤ := none
deriving DecidableEq, Repr

/-- ROLLING_MINUTES = 90 in the source. -/
def ROLLING_MINUTES : ℚ := 90

/-- CLUSTER_RADIUS_KM = 200 in the source (absorbed into the neighbour
predicate parameter of the clustering definitions below). -/
def CLUSTER_RADIUS_KM : ℚ := 200

/-- The window filter of plot_earthquakes_with_clusters:
recent_quakes = [q for q in quakes if q["timestamp"] >= time_cutoff] with
time_cutoff = now - timedelta(minutes=minutes_back). -/
def recent_quakes (now minutes_back : ℚ) (quakes : List Quake) : List Quake :=
  quakes.filter (fun q => decide (now - minutes_back ≤ q.timestamp))

/-- The Alaska-region test of the split in plot_earthquakes_with_clusters:
q["lon"] < -130 and q["lat"] > 50. -/
def isAK (q : Quake) : Bool :=
  decide (q.lon < -130) && decide (50 < q.lat)

/-- ak_quakes = [q for q in recent_quakes if q["lon"] < -130 and q["lat"] > 50]. -/
def ak_quakes (recent : List Quake) : List Quake :=
  recent.filter isAK

/-- main_quakes = [q for q in recent_quakes if q not in ak_quakes]; Python
membership on dictionaries is structural equality, modelled by list
membership under decidable equality of Quake. -/
def main_quakes (recent : List Quake) : List Quake :=
  recent.filter (fun q => !(decide (q ∈ ak_quakes recent)))

/-- Two quake records agree on every field except the transient cluster
field; used to model that in-place label writes keep every other key of the
Python dictionary unchanged. -/
def sameBase (a b : Quake) : Bool :=
  decide (a.lon = b.lon) && decide (a.lat = b.lat) && decide (a.mag = b.mag) &&
  decide (a.place = b.place) && decide (a.timestamp = b.timestamp)

/-! ## Density-based cluster assigner

Modelled from the spec: the source delegates clustering to
sklearn.cluster.DBSCAN (an external library, not part of this repository),
called with min_samples = 2 on the haversine metric.  Following section 4.4
of the spec, the assigner is defined over an index set Fin n with a boolean
neighbour predicate (point j is within epsilonKm of point i): neighbour sets,
core points (at least minPoints neighbours, self included), clusters as the
points density-reachable from a core point, label -1 for noise, and integer
labels assigned in discovery (index) order. -/

/-- Neighbour set of point i: all points within epsilon of i (inclusive
boundary), i itself included when near i i holds. -/
def nbrs {n : ℕ} (near : Fin n → Fin n → Bool) (i : Fin n) : Finset (Fin n) :=
  Finset.univ.filter (fun j => near i j)

/-- Core point: at least minPts points (self included) in its neighbourhood. -/
def isCore {n : ℕ} (near : Fin n → Fin n → Bool) (minPts : ℕ) (i : Fin n) : Bool :=
  decide (minPts ≤ (nbrs near i).card)

/-- One expansion step of density reachability: add every point that is a
neighbour of some core point already in the set. -/
def expandStep {n : ℕ} (near : Fin n → Fin n → Bool) (minPts : ℕ)
    (S : Finset (Fin n)) : Finset (Fin n) :=
  S ∪ Finset.univ.filter
    (fun j => ∃ i ∈ S, isCore near minPts i = true ∧ near i j = true)

/-- All points density-reachable from i, computed by iterating the expansion
step n times (enough to reach the fixpoint on n points). -/
def reachSet {n : ℕ} (near : Fin n → Fin n → Bool) (minPts : ℕ) (i : Fin n) :
    Finset (Fin n) :=
  (expandStep near minPts)^[n] {i}

/-- The cluster representative of point j: the first core point (in index
order) from which j is density-reachable, if any.  Discovery order of the
representatives fixes the integer labels. -/
def clusterRep {n : ℕ} (near : Fin n → Fin n → Bool) (minPts : ℕ) (j : Fin n) :
    Option (Fin n) :=
  (List.finRange n).find?
    (fun i => isCore near minPts i && decide (j ∈ reachSet near minPts i))

/-- The label the assigner gives point j: -1 (noise) when no core point
reaches j, otherwise the index of its cluster representative. -/
def labelOf {n : ℕ} (near : Fin n → Fin n → Bool) (minPts : ℕ) (j : Fin n) : ℤ :=
  match clusterRep near minPts j with
  | none => -1
  | some i => (i.val : ℤ)

/-- Density reachability as in section 4.4 of the spec: j is reachable from i
through a chain whose every intermediate point is core, each step moving to a
neighbour. -/
inductive DReach {n : ℕ} (near : Fin n → Fin n → Bool) (minPts : ℕ) :
    Fin n → Fin n → Prop where
  | refl (i : Fin n) : DReach near minPts i i
  | step {i c j : Fin n} : DReach near minPts i c → isCore near minPts c = true →
      near c j = true → DReach near minPts i j

/-- Neighbour predicate induced by a rational distance matrix with inclusive
boundary, as in section 4.4 of the spec. -/
def nearD {n : ℕ} (d : Fin n → Fin n → ℚ) (eps : ℚ) : Fin n → Fin n → Bool :=
  fun i j => decide (d i j ≤ eps)

/-! ## The per-pass labelling of the quake lists -/

/-- Neighbour predicate on the indices of a quake list induced by a neighbour
predicate on quakes (the source compares haversine distances of the (lat,lon)
pairs against epsilon). -/
def nearIdx (near : Quake → Quake → Bool) (qs : List Quake) :
    Fin qs.length → Fin qs.length → Bool :=
  fun i j => near (qs.get i) (qs.get j)

/-- Effect of plot_quakes_on_axis on the quake dictionaries it receives: with
labels = DBSCAN(min_samples=2).fit_predict(coords), each quake gets
quake["cluster"] = labels[i] written in place; an empty list returns at once.
The returned list is the list of updated dictionaries. -/
def plot_quakes_on_axis (near : Quake → Quake → Bool) (quakes : List Quake) :
    List Quake :=
  if quakes.isEmpty then quakes
  else (List.finRange quakes.length).map
    (fun i => { quakes.get i with cluster := some (labelOf (nearIdx near quakes) 2 i) })

/-- Effect of plot_earthquakes_with_clusters on the global quake list: filter
the rolling window, return unchanged if the window is empty, otherwise split
the window into the Alaska and main regions, run the assigner on each region
separately, and write each in-window quake dictionary's cluster label in
place (out-of-window quakes are untouched).  The in-place writes on the
aliased dictionaries are rendered purely by looking each in-window quake up
in the labelled copy of its region. -/
def plot_earthquakes_with_clusters (near : Quake → Quake → Bool)
    (now minutes_back : ℚ) (quakes : List Quake) : List Quake :=
  let recent := recent_quakes now minutes_back quakes
  if recent.isEmpty then quakes
  else
    let ak := ak_quakes recent
    let main := main_quakes recent
    let lmain := plot_quakes_on_axis near main
    let lak := plot_quakes_on_axis near ak
    quakes.map (fun q =>
      if decide (now - minutes_back ≤ q.timestamp) then
        if isAK q then (lak.find? (fun r => sameBase r q)).getD q
        else (lmain.find? (fun r => sameBase r q)).getD q
      else q)

/-! ## Message processing -/

/-- A parsed inbound message: invalid stands for a payload on which
json.loads raises JSONDecodeError; record carries the three fields
process_message reads, each absent when dict.get returns None. -/
inductive Msg where
  | invalid : Msg
  | record (coordinates : Option (List ℚ)) (mag : Option ℚ) (place : Option String) : Msg
deriving DecidableEq

/-- Effect of process_message on the global quake list.  Mirrors the source:
invalid JSON is caught and the list is untouched; a record whose coordinates
or magnitude are absent or falsy (empty list, zero number) only logs a
warning; a truthy coordinate list with fewer than two entries raises
IndexError inside the dictionary construction, caught by the generic handler
before any append; otherwise the new quake (lon = coordinates[0],
lat = coordinates[1], mag, place or default, timestamp = now) is appended
and the plotting pass runs on the grown list. -/
def process_message (near : Quake → Quake → Bool) (now : ℚ)
    (buf : List Quake) : Msg → List Quake
  | .invalid => buf
  | .record none _ _ => buf
  | .record (some _) none _ => buf
  | .record (some l) (some m) place =>
    if l.isEmpty then buf
    else if m = 0 then buf
    else if h : 2 ≤ l.length then
      plot_earthquakes_with_clusters near now ROLLING_MINUTES
        (buf ++ [{ lon := l.get ⟨0, by omega⟩, lat := l.get ⟨1, by omega⟩,
                   mag := m, place := place.getD "", timestamp := now,
                   cluster := none }])
    else buf

/-- A message that process_message drops without touching the quake list:
invalid JSON, a missing or falsy coordinates or mag field, or a coordinate
list too short to index. -/
def failsValidation : Msg → Bool
  | .invalid => true
  | .record none _ _ => true
  | .record (some _) none _ => true
  | .record (some l) (some m) _ =>
    l.isEmpty || decide (m = 0) || decide (l.length < 2)

/-- A raw record containing a coordinate pair (exactly two numbers) and a
magnitude, the precondition of the validation claim. -/
def hasPairAndMag : Msg → Prop
  | .record (some l) (some _) _ => l.length = 2
  | _ => False

/-! ## Great-circle distance and cluster geometry -/

/-- Degrees to radians, as math.radians. -/
noncomputable def radiansOf (x : ℝ) : ℝ := x * Real.pi / 180

/-- The haversine library function used by the source (unit = kilometers):
2 * 6371.0088 * asin(sqrt(sin((lat2-lat1)/2)^2
                          + cos(lat1)*cos(lat2)*sin((lon2-lon1)/2)^2))
with all four inputs converted to radians first. -/
noncomputable def haversineKm (lat1 lon1 lat2 lon2 : ℝ) : ℝ :=
  2 * 6371.0088 * Real.arcsin (Real.sqrt (
    Real.sin ((radiansOf lat2 - radiansOf lat1) / 2) ^ 2 +
    Real.cos (radiansOf lat1) * Real.cos (radiansOf lat2) *
      Real.sin ((radiansOf lon2 - radiansOf lon1) / 2) ^ 2))

/-- avg_lat = np.mean([q["lat"] for q in members]). -/
noncomputable def avg_lat (members : List Quake) : ℝ :=
  ((members.map (fun q => (q.lat : ℝ))).sum) / members.length

/-- avg_lon = np.mean([q["lon"] for q in members]). -/
noncomputable def avg_lon (members : List Quake) : ℝ :=
  ((members.map (fun q => (q.lon : ℝ))).sum) / members.length

/-- haversine((avg_lat, avg_lon), (q["lat"], q["lon"])) for a member q. -/
noncomputable def dist_to_centroid (members : List Quake) (q : Quake) : ℝ :=
  haversineKm (avg_lat members) (avg_lon members) (q.lat : ℝ) (q.lon : ℝ)

/-- max_dist_km = max(haversine(centroid, member) for member in members);
the Python max of a nonempty sequence, folded from its first element. -/
noncomputable def max_dist_km : List Quake → ℝ
  | [] => 0
  | q :: qs => (qs.map (dist_to_centroid (q :: qs))).foldl max (dist_to_centroid (q :: qs) q)

/-- The covering radius handed to the geodesic circle, in meters:
max_dist_km *= 1.2 followed by radius = max_dist_km * 1000. -/
noncomputable def coveringRadiusMeters (members : List Quake) : ℝ :=
  (max_dist_km members * 1.2) * 1000

/-- The labels array of one assigner run on a snapshot list, in list order
(what db.fit_predict returns for the coordinate array of the list, with
min_samples = 2 as in the source). -/
def assignLabels (near : Quake → Quake → Bool) (qs : List Quake) : List ℤ :=
  (List.finRange qs.length).map (fun i => labelOf (nearIdx near qs) 2 i)

/-- Distance matrix of three coincident points, used to instantiate the
clustering theorems on a concrete input. -/
def dZero : Fin 3 → Fin 3 → ℚ := fun _ _ => 0

/-- A neighbour predicate that always holds: what the haversine test of the
source evaluates to on coincident points (distance 0 is within any radius). -/
def nearAll : Quake → Quake → Bool := fun _ _ => true

/-- A quake observed at minute 0 (outside the 90-minute window once now is
minute 100). -/
def staleQuake : Quake :=
  { lon := -118, lat := 34, mag := 5, place := "", timestamp := 0, cluster := none }

/-- A quake observed at minute 100. -/
def freshQuake : Quake :=
  { lon := -118, lat := 34, mag := 4, place := "", timestamp := 100, cluster := none }

/-- A well-formed message carrying a coordinate pair and magnitude 4. -/
def freshMsg : Msg := Msg.record (some [-118, 34]) (some 4) none

/-- A message carrying a coordinate pair and magnitude exactly 0. -/
def magZeroMsg : Msg := Msg.record (some [10, 20]) (some 0) none

/-! ## Reachability lemmas for the assigner -/

/-- The expansion step only grows the set. -/
theorem subset_expandStep {n : ℕ} (near : Fin n → Fin n → Bool) (minPts : ℕ)
    (S : Finset (Fin n)) : S ⊆ expandStep near minPts S :=
  Finset.subset_union_left

/-- Membership in the expansion step, unfolded. -/
theorem mem_expandStep {n : ℕ} (near : Fin n → Fin n → Bool) (minPts : ℕ)
    (S : Finset (Fin n)) (j : Fin n) :
    j ∈ expandStep near minPts S ↔
      j ∈ S ∨ ∃ i ∈ S, isCore near minPts i = true ∧ near i j = true := by
  simp [expandStep]

/-- Iterating the expansion step only grows the set. -/
theorem subset_iterate_expandStep {n : ℕ} (near : Fin n → Fin n → Bool)
    (minPts : ℕ) (S : Finset (Fin n)) (k : ℕ) :
    S ⊆ (expandStep near minPts)^[k] S := by
  induction k with
  | zero => simp
  | succ k ih =>
    rw [Function.iterate_succ_apply']
    exact ih.trans (subset_expandStep near minPts _)

/-- Once one expansion step adds nothing, no further step does. -/
theorem iterate_expandStep_stab {n : ℕ} (near : Fin n → Fin n → Bool)
    (minPts : ℕ) (S : Finset (Fin n)) (j m : ℕ)
    (h : (expandStep near minPts)^[j + 1] S = (expandStep near minPts)^[j] S) :
    (expandStep near minPts)^[j + m] S = (expandStep near minPts)^[j] S := by
  induction m with
  | zero => rfl
  | succ m ih =>
    have hjm : j + (m + 1) = (j + m) + 1 := by omega
    have h' : expandStep near minPts ((expandStep near minPts)^[j] S) =
        (expandStep near minPts)^[j + 1] S :=
      (Function.iterate_succ_apply' (expandStep near minPts) j S).symm
    rw [hjm, Function.iterate_succ_apply', ih, h', h]

/-- Either the iteration stabilises within k steps, or the set has grown k
times. -/
theorem iterate_expandStep_growth {n : ℕ} (near : Fin n → Fin n → Bool)
    (minPts : ℕ) (S : Finset (Fin n)) (k : ℕ) :
    (∃ j < k, (expandStep near minPts)^[j + 1] S = (expandStep near minPts)^[j] S) ∨
      S.card + k ≤ ((expandStep near minPts)^[k] S).card := by
  induction k with
  | zero => right; simp
  | succ k ih =>
    rcases ih with ⟨j, hj, hstab⟩ | hcard
    · exact Or.inl ⟨j, by omega, hstab⟩
    · by_cases heq :
        (expandStep near minPts)^[k + 1] S = (expandStep near minPts)^[k] S
      · exact Or.inl ⟨k, by omega, heq⟩
      · right
        have hsub : (expandStep near minPts)^[k] S ⊆ (expandStep near minPts)^[k + 1] S := by
          rw [Function.iterate_succ_apply']
          exact subset_expandStep near minPts _
        have hlt : ((expandStep near minPts)^[k] S).card <
            ((expandStep near minPts)^[k + 1] S).card :=
          Finset.card_lt_card (hsub.ssubset_of_ne (fun hh => heq hh.symm))
        omega

/-- The n-fold iterate from a singleton is a fixpoint of the expansion step. -/
theorem expandStep_reachSet {n : ℕ} (near : Fin n → Fin n → Bool) (minPts : ℕ)
    (i : Fin n) :
    expandStep near minPts (reachSet near minPts i) = reachSet near minPts i := by
  obtain ⟨j, hj, hstab⟩ :
      ∃ j < n, (expandStep near minPts)^[j + 1] ({i} : Finset (Fin n)) =
        (expandStep near minPts)^[j] {i} := by
    rcases iterate_expandStep_growth near minPts {i} n with h | h
    · exact h
    · exfalso
      have h1 : ({i} : Finset (Fin n)).card = 1 := Finset.card_singleton i
      have h2 : ((expandStep near minPts)^[n] ({i} : Finset (Fin n))).card ≤ n := by
        calc ((expandStep near minPts)^[n] ({i} : Finset (Fin n))).card
            ≤ (Finset.univ : Finset (Fin n)).card := Finset.card_le_univ _
          _ = n := by simp
      omega
  have hn : (expandStep near minPts)^[n] ({i} : Finset (Fin n)) =
      (expandStep near minPts)^[j] {i} := by
    have hstep := iterate_expandStep_stab near minPts {i} j (n - j) hstab
    have hj' : j + (n - j) = n := by omega
    rw [hj'] at hstep
    exact hstep
  show expandStep near minPts ((expandStep near minPts)^[n] {i}) =
    (expandStep near minPts)^[n] ({i} : Finset (Fin n))
  rw [hn]
  have h' : expandStep near minPts ((expandStep near minPts)^[j] ({i} : Finset (Fin n))) =
      (expandStep near minPts)^[j + 1] {i} :=
    (Function.iterate_succ_apply' (expandStep near minPts) j {i}).symm
  rw [h']
  exact hstab

/-- Soundness: everything the iteration collects is density-reachable. -/
theorem dreach_of_mem_iterate {n : ℕ} (near : Fin n → Fin n → Bool)
    (minPts : ℕ) (i : Fin n) (k : ℕ) :
    ∀ j ∈ (expandStep near minPts)^[k] ({i} : Finset (Fin n)),
      DReach near minPts i j := by
  induction k with
  | zero =>
    intro j hj
    simp only [Function.iterate_zero_apply, Finset.mem_singleton] at hj
    subst hj
    exact DReach.refl _
  | succ k ih =>
    intro j hj
    rw [Function.iterate_succ_apply', mem_expandStep] at hj
    rcases hj with hj | ⟨c, hc, hcore, hnear⟩
    · exact ih j hj
    · exact DReach.step (ih c hc) hcore hnear

/-- Completeness: every density-reachable point is collected. -/
theorem mem_reachSet_of_dreach {n : ℕ} (near : Fin n → Fin n → Bool)
    (minPts : ℕ) {i j : Fin n} (h : DReach near minPts i j) :
    j ∈ reachSet near minPts i := by
  induction h with
  | refl =>
    exact subset_iterate_expandStep near minPts _ n (Finset.mem_singleton_self _)
  | step hd hco hne ih =>
    rw [← expandStep_reachSet near minPts i, mem_expandStep]
    exact Or.inr ⟨_, ih, by assumption, by assumption⟩

/-- The computed reachable set is exactly density reachability. -/
theorem mem_reachSet_iff {n : ℕ} (near : Fin n → Fin n → Bool) (minPts : ℕ)
    (i j : Fin n) :
    j ∈ reachSet near minPts i ↔ DReach near minPts i j :=
  ⟨dreach_of_mem_iterate near minPts i n j, mem_reachSet_of_dreach near minPts⟩

/-- The assigner labels j as noise exactly when no core point density-reaches
j. -/
theorem labelOf_eq_neg_one_iff {n : ℕ} (near : Fin n → Fin n → Bool)
    (minPts : ℕ) (j : Fin n) :
    labelOf near minPts j = -1 ↔
      ¬ ∃ i, isCore near minPts i = true ∧ DReach near minPts i j := by
  cases h : clusterRep near minPts j with
  | none =>
    simp only [labelOf, h, true_iff]
    unfold clusterRep at h
    rw [List.find?_eq_none] at h
    intro ⟨i, hcore, hreach⟩
    have := h i (List.mem_finRange i)
    simp only [Bool.and_eq_true, decide_eq_true_eq, not_and] at this
    exact this hcore ((mem_reachSet_iff near minPts i j).mpr hreach)
  | some i =>
    simp only [labelOf, h]
    have hp := List.find?_some h
    simp only [Bool.and_eq_true, decide_eq_true_eq] at hp
    have hpos : (0 : ℤ) ≤ (i.val : ℤ) := Int.natCast_nonneg i.val
    constructor
    · intro heq; omega
    · intro hne
      exact absurd ⟨i, hp.1, (mem_reachSet_iff near minPts i j).mp hp.2⟩ hne

/-- With fewer than minPts points in total, no point is core. -/
theorem isCore_false_of_few {n : ℕ} (near : Fin n → Fin n → Bool) (minPts : ℕ)
    (h : n < minPts) (i : Fin n) : isCore near minPts i = false := by
  unfold isCore
  simp only [decide_eq_false_iff_not, not_le]
  calc (nbrs near i).card ≤ (Finset.univ : Finset (Fin n)).card :=
        Finset.card_le_univ _
    _ = n := by simp
    _ < minPts := h

/-- With fewer than minPts points in total, every point is noise. -/
theorem labelOf_of_few {n : ℕ} (near : Fin n → Fin n → Bool) (minPts : ℕ)
    (h : n < minPts) (j : Fin n) : labelOf near minPts j = -1 := by
  rw [labelOf_eq_neg_one_iff]
  rintro ⟨i, hcore, -⟩
  rw [isCore_false_of_few near minPts h i] at hcore
  exact Bool.false_ne_true hcore

/-- A point strictly farther than epsilon from every other point is noise
whenever minPts is at least 2. -/
theorem labelOf_isolated {n : ℕ} (d : Fin n → Fin n → ℚ) (eps : ℚ)
    (minPts : ℕ) (j : Fin n) (hmin : 2 ≤ minPts)
    (hiso : ∀ k, k ≠ j → eps < d j k ∧ eps < d k j) :
    labelOf (nearD d eps) minPts j = -1 := by
  rw [labelOf_eq_neg_one_iff]
  rintro ⟨i, hcore, hreach⟩
  have hjcore : isCore (nearD d eps) minPts j = false := by
    unfold isCore
    simp only [decide_eq_false_iff_not, not_le]
    have hsub : nbrs (nearD d eps) j ⊆ {j} := by
      intro k hk
      simp only [nbrs, Finset.mem_filter, Finset.mem_univ, true_and] at hk
      simp only [Finset.mem_singleton]
      by_contra hkj
      have h1 := (hiso k hkj).1
      simp only [nearD, decide_eq_true_eq] at hk
      linarith
    have hcard : (nbrs (nearD d eps) j).card ≤ 1 :=
      le_trans (Finset.card_le_card hsub) (by simp)
    omega
  cases hreach with
  | refl =>
    rw [hjcore] at hcore
    exact Bool.false_ne_true hcore
  | step hd hco hne =>
    rename_i c
    by_cases hcj : c = j
    · subst hcj
      rw [hjcore] at hco
      exact Bool.false_ne_true hco
    · have h2 := (hiso c hcj).2
      simp only [nearD, decide_eq_true_eq] at hne
      linarith

/-- Three points pairwise within 100 km with minPoints = 3: every point gets
label 0 (the cluster of the first discovered core point). -/
theorem labelOf_three {d : Fin 3 → Fin 3 → ℚ} (hall : ∀ i j, d i j ≤ 100)
    (j : Fin 3) : labelOf (nearD d 100) 3 j = 0 := by
  have hnear : ∀ i k : Fin 3, nearD d 100 i k = true := by
    intro i k
    simp [nearD, hall i k]
  have hcore : ∀ i : Fin 3, isCore (nearD d 100) 3 i = true := by
    intro i
    unfold isCore nbrs
    rw [Finset.filter_true_of_mem (fun k _ => hnear i k)]
    simp
  have hreach0 : j ∈ reachSet (nearD d 100) 3 0 := by
    rw [mem_reachSet_iff]
    exact DReach.step (DReach.refl 0) (hcore 0) (hnear 0 j)
  have hfr : List.finRange 3 = [0, 1, 2] := by decide
  have hrep : clusterRep (nearD d 100) 3 j = some 0 := by
    unfold clusterRep
    rw [hfr]
    apply List.find?_cons_of_pos
    simp [hcore 0, hreach0]
  simp [labelOf, hrep]

/-! ## Claim C4 -/

/-- C4: for every window point set, every point not density-reachable from a
core point is labeled noise; a point strictly farther than epsilonKm from all
other points is noise; fewer than minPoints total events makes every point
noise; and 3 points mutually within epsilonKm = 100 with minPoints = 3 all
receive the same non-noise label. -/
theorem C4_density_clustering :
    (∀ (n : ℕ) (d : Fin n → Fin n → ℚ) (eps : ℚ) (minPts : ℕ) (j : Fin n),
        labelOf (nearD d eps) minPts j = -1 ↔
          ¬ ∃ i, isCore (nearD d eps) minPts i = true ∧
            DReach (nearD d eps) minPts i j) ∧
    (∀ (n : ℕ) (d : Fin n → Fin n → ℚ) (eps : ℚ) (minPts : ℕ) (j : Fin n),
        2 ≤ minPts → (∀ k, k ≠ j → eps < d j k ∧ eps < d k j) →
        labelOf (nearD d eps) minPts j = -1) ∧
    (∀ (n : ℕ) (d : Fin n → Fin n → ℚ) (eps : ℚ) (minPts : ℕ),
        n < minPts → ∀ j, labelOf (nearD d eps) minPts j = -1) ∧
    (∀ (d : Fin 3 → Fin 3 → ℚ), (∀ i j, d i j ≤ 100) →
        ∀ i j : Fin 3, labelOf (nearD d 100) 3 i = labelOf (nearD d 100) 3 j ∧
          labelOf (nearD d 100) 3 i ≠ -1) := by
  refine ⟨?_, ?_, ?_, ?_⟩
  · intro n d eps minPts j
    exact labelOf_eq_neg_one_iff _ _ _
  · intro n d eps minPts j hmin hiso
    exact labelOf_isolated d eps minPts j hmin hiso
  · intro n d eps minPts h j
    exact labelOf_of_few _ _ h j
  · intro d hall i j
    rw [labelOf_three hall i, labelOf_three hall j]
    exact ⟨rfl, by decide⟩

/-- Witness for C4 on a concrete input: three coincident points with
minPoints = 3 all get the same non-noise label. -/
theorem C4_density_clustering_witness :
    labelOf (nearD dZero 100) 3 0 = labelOf (nearD dZero 100) 3 1 ∧
      labelOf (nearD dZero 100) 3 0 ≠ -1 :=
  C4_density_clustering.2.2.2 dZero (by decide) 0 1

/-! ## Claims C8 and C10 -/

/-- C8: two runs of the assigner on the identical snapshot (same points, same
order) yield the identical partition into clusters and noise. -/
theorem C8_assigner_idempotent (near : Quake → Quake → Bool) (qs : List Quake)
    (r1 r2 : List ℤ)
    (h1 : r1 = assignLabels near qs) (h2 : r2 = assignLabels near qs) :
    r1.length = r2.length ∧
      (∀ i j : ℕ, r1[i]? = r1[j]? ↔ r2[i]? = r2[j]?) ∧
      (∀ i : ℕ, r1[i]? = some (-1) ↔ r2[i]? = some (-1)) := by
  subst h1
  subst h2
  exact ⟨rfl, fun i j => Iff.rfl, fun i => Iff.rfl⟩

/-- Witness for C8 on a concrete snapshot. -/
theorem C8_assigner_idempotent_witness :
    (assignLabels nearAll [freshQuake]).length =
        (assignLabels nearAll [freshQuake]).length ∧
      (∀ i j : ℕ, (assignLabels nearAll [freshQuake])[i]? =
          (assignLabels nearAll [freshQuake])[j]? ↔
        (assignLabels nearAll [freshQuake])[i]? =
          (assignLabels nearAll [freshQuake])[j]?) ∧
      (∀ i : ℕ, (assignLabels nearAll [freshQuake])[i]? = some (-1) ↔
          (assignLabels nearAll [freshQuake])[i]? = some (-1)) :=
  C8_assigner_idempotent nearAll [freshQuake] _ _ rfl rfl

/-- C10: the window boundary is inclusive: an event whose age is exactly
minutes_back is retained by the window filter, and an event strictly older is
excluded. -/
theorem C10_window_boundary (now minutes_back : ℚ) (quakes : List Quake)
    (q : Quake) (hq : q ∈ quakes) :
    (now - q.timestamp = minutes_back → q ∈ recent_quakes now minutes_back quakes) ∧
      (minutes_back < now - q.timestamp → q ∉ recent_quakes now minutes_back quakes) := by
  constructor
  · intro h
    unfold recent_quakes
    rw [List.mem_filter]
    refine ⟨hq, ?_⟩
    simp only [decide_eq_true_eq]
    linarith
  · intro h hmem
    unfold recent_quakes at hmem
    rw [List.mem_filter] at hmem
    simp only [decide_eq_true_eq] at hmem
    linarith [hmem.2]

/-- Witness for C10: a quake exactly 90 minutes old at now = 190 is retained. -/
theorem C10_window_boundary_witness :
    freshQuake ∈ recent_quakes 190 90 [freshQuake] :=
  (C10_window_boundary 190 90 [freshQuake] freshQuake (List.mem_singleton_self _)).1
    (by norm_num [freshQuake])

/-! ## Lemmas on the labelling pass -/

/-- Writing the cluster field leaves every other field intact. -/
theorem sameBase_setCluster (q : Quake) (z : Option ℤ) :
    sameBase { q with cluster := z } q = true := by
  simp [sameBase]

/-- Every output of plot_quakes_on_axis carries a written cluster label. -/
theorem plot_quakes_on_axis_cluster (near : Quake → Quake → Bool)
    (qs : List Quake) :
    ∀ r ∈ plot_quakes_on_axis near qs, ∃ z, r.cluster = some z := by
  intro r hr
  unfold plot_quakes_on_axis at hr
  by_cases he : qs.isEmpty
  · rw [if_pos he] at hr
    rw [List.isEmpty_iff] at he
    subst he
    simp at hr
  · rw [if_neg he] at hr
    rw [List.mem_map] at hr
    obtain ⟨i, -, hi⟩ := hr
    subst hi
    exact ⟨_, rfl⟩

/-- Every output of plot_quakes_on_axis is a base-preserving copy of an input
element. -/
theorem plot_quakes_on_axis_base (near : Quake → Quake → Bool)
    (qs : List Quake) :
    ∀ r ∈ plot_quakes_on_axis near qs, ∃ q ∈ qs, sameBase r q = true := by
  intro r hr
  unfold plot_quakes_on_axis at hr
  by_cases he : qs.isEmpty
  · rw [if_pos he] at hr
    rw [List.isEmpty_iff] at he
    subst he
    simp at hr
  · rw [if_neg he] at hr
    rw [List.mem_map] at hr
    obtain ⟨i, -, hi⟩ := hr
    subst hi
    exact ⟨qs.get i, List.get_mem qs i.1 i.2, sameBase_setCluster (qs.get i) _⟩

/-- Every input element has a base-preserving, label-carrying copy among the
outputs of plot_quakes_on_axis. -/
theorem plot_quakes_on_axis_surj (near : Quake → Quake → Bool)
    (qs : List Quake) :
    ∀ q ∈ qs, ∃ r ∈ plot_quakes_on_axis near qs, sameBase r q = true := by
  intro q hq
  rw [List.mem_iff_get] at hq
  obtain ⟨i, hi⟩ := hq
  have hne : ¬ qs.isEmpty := by
    rw [List.isEmpty_iff]
    intro h
    subst h
    exact absurd i.isLt (by simp)
  refine ⟨{ qs.get i with cluster := some (labelOf (nearIdx near qs) 2 i) }, ?_, ?_⟩
  · unfold plot_quakes_on_axis
    rw [if_neg hne, List.mem_map]
    exact ⟨i, List.mem_finRange i, rfl⟩
  · rw [← hi]
    exact sameBase_setCluster (qs.get i) _

/-- Membership in the window view. -/
theorem mem_recent_quakes (now minutes_back : ℚ) (quakes : List Quake)
    (q : Quake) :
    q ∈ recent_quakes now minutes_back quakes ↔
      q ∈ quakes ∧ now - minutes_back ≤ q.timestamp := by
  unfold recent_quakes
  rw [List.mem_filter]
  simp

/-- Membership in the Alaska region. -/
theorem mem_ak_quakes (recent : List Quake) (q : Quake) :
    q ∈ ak_quakes recent ↔ q ∈ recent ∧ isAK q = true := by
  unfold ak_quakes
  exact List.mem_filter

/-- Membership in the main region. -/
theorem mem_main_quakes (recent : List Quake) (q : Quake) :
    q ∈ main_quakes recent ↔ q ∈ recent ∧ q ∉ ak_quakes recent := by
  unfold main_quakes
  rw [List.mem_filter]
  simp

/-- The pass with an empty window leaves the quake list untouched. -/
theorem plot_earthquakes_with_clusters_of_empty (near : Quake → Quake → Bool)
    (now minutes_back : ℚ) (quakes : List Quake)
    (he : (recent_quakes now minutes_back quakes).isEmpty = true) :
    plot_earthquakes_with_clusters near now minutes_back quakes = quakes := by
  simp only [plot_earthquakes_with_clusters]
  rw [he]
  rfl

/-- The pass with a nonempty window maps every buffered quake through the
in-place label write. -/
theorem plot_earthquakes_with_clusters_of_ne (near : Quake → Quake → Bool)
    (now minutes_back : ℚ) (quakes : List Quake)
    (hne : (recent_quakes now minutes_back quakes).isEmpty = false) :
    plot_earthquakes_with_clusters near now minutes_back quakes =
      quakes.map (fun q =>
        if decide (now - minutes_back ≤ q.timestamp) = true then
          if isAK q = true then
            (((plot_quakes_on_axis near
                (ak_quakes (recent_quakes now minutes_back quakes))).find?
              (fun r => sameBase r q)).getD q)
          else
            (((plot_quakes_on_axis near
                (main_quakes (recent_quakes now minutes_back quakes))).find?
              (fun r => sameBase r q)).getD q)
        else q) := by
  simp only [plot_earthquakes_with_clusters]
  rw [hne]
  rfl

/-- Looking a listed quake up among the labelled copies of its own list
always yields a record with a written cluster label. -/
theorem find_labelled_cluster (near : Quake → Quake → Bool) (qs : List Quake)
    (q0 : Quake) (hq0 : q0 ∈ qs) :
    ∃ z, (((plot_quakes_on_axis near qs).find?
        (fun r => sameBase r q0)).getD q0).cluster = some z := by
  obtain ⟨r, hr, hsame⟩ := plot_quakes_on_axis_surj near qs q0 hq0
  have hsome : ((plot_quakes_on_axis near qs).find? (fun r => sameBase r q0)).isSome :=
    List.find?_isSome.mpr ⟨r, hr, hsame⟩
  obtain ⟨r', hfind⟩ := Option.isSome_iff_exists.mp hsome
  rw [hfind, Option.getD_some]
  exact plot_quakes_on_axis_cluster near qs r' (List.mem_of_find?_eq_some hfind)

/-! ## Claim C2 -/

/-- C2 amended: cluster labels are written in place into the buffered
events: after a pass whose window is nonempty, every in-window event of the
buffer carries a written cluster field (possibly the noise label -1). -/
theorem C2_labels_persist (near : Quake → Quake → Bool)
    (now minutes_back : ℚ) (quakes : List Quake)
    (hne : (recent_quakes now minutes_back quakes).isEmpty = false) :
    ∀ q ∈ plot_earthquakes_with_clusters near now minutes_back quakes,
      now - minutes_back ≤ q.timestamp → ∃ z, q.cluster = some z := by
  intro q hq hts
  rw [plot_earthquakes_with_clusters_of_ne near now minutes_back quakes hne] at hq
  rw [List.mem_map] at hq
  obtain ⟨q0, hq0, hf⟩ := hq
  by_cases hrec : decide (now - minutes_back ≤ q0.timestamp) = true
  · rw [if_pos hrec] at hf
    by_cases hak : isAK q0 = true
    · rw [if_pos hak] at hf
      subst hf
      apply find_labelled_cluster
      rw [mem_ak_quakes]
      refine ⟨?_, hak⟩
      rw [mem_recent_quakes]
      exact ⟨hq0, by simpa using hrec⟩
    · rw [if_neg hak] at hf
      subst hf
      apply find_labelled_cluster
      rw [mem_main_quakes]
      refine ⟨?_, ?_⟩
      · rw [mem_recent_quakes]
        exact ⟨hq0, by simpa using hrec⟩
      · intro hmem
        rw [mem_ak_quakes] at hmem
        exact hak hmem.2
  · rw [if_neg hrec] at hf
    subst hf
    simp only [decide_eq_true_eq] at hrec
    exact absurd hts hrec

/-- Concrete run of the pass on a single fresh quake: the buffered event
comes out carrying the written noise label. -/
theorem eval_plot_fresh :
    plot_earthquakes_with_clusters nearAll 100 90 [freshQuake] =
      [{ freshQuake with cluster := some (-1) }] := by
  have hrec : recent_quakes 100 90 [freshQuake] = [freshQuake] := by
    norm_num [recent_quakes, freshQuake]
  have hne : (recent_quakes 100 90 [freshQuake]).isEmpty = false := by
    rw [hrec]
    rfl
  rw [plot_earthquakes_with_clusters_of_ne nearAll 100 90 [freshQuake] hne, hrec]
  have hc : decide ((100 : ℚ) - 90 ≤ freshQuake.timestamp) = true := by
    norm_num [freshQuake]
  simp only [List.map_cons, List.map_nil, hc]
  decide

/-- Counterexample to C2 as stated: after a pass, the event stored in the
buffer does carry a cluster-label field (here the noise label -1). -/
theorem C2_counterexample :
    plot_earthquakes_with_clusters nearAll 100 90 [freshQuake] =
        [{ freshQuake with cluster := some (-1) }] ∧
      ({ freshQuake with cluster := some (-1) } : Quake).cluster ≠ none :=
  ⟨eval_plot_fresh, by simp⟩

/-- Witness for the amended C2 at a concrete input. -/
theorem C2_labels_persist_witness :
    ∃ z, ({ freshQuake with cluster := some (-1) } : Quake).cluster = some z :=
  C2_labels_persist nearAll 100 90 [freshQuake]
    (by rw [show recent_quakes 100 90 [freshQuake] = [freshQuake] from by
          norm_num [recent_quakes, freshQuake]]
        rfl)
    { freshQuake with cluster := some (-1) }
    (by rw [eval_plot_fresh]; exact List.mem_singleton_self _)
    (by norm_num [freshQuake])

/-! ## Claim C1 -/

/-- C1 amended: each pass computes a live-window view of the buffer in which
every event is at most minutes_back old and which omits no in-window event;
the buffer itself is not pruned (the pass preserves its length, so stale
events stay in memory). -/
theorem C1_window_view (near : Quake → Quake → Bool) (now minutes_back : ℚ)
    (quakes : List Quake) :
    (∀ q ∈ recent_quakes now minutes_back quakes, now - q.timestamp ≤ minutes_back) ∧
      (∀ q ∈ quakes, now - q.timestamp ≤ minutes_back →
        q ∈ recent_quakes now minutes_back quakes) ∧
      (plot_earthquakes_with_clusters near now minutes_back quakes).length =
        quakes.length := by
  refine ⟨?_, ?_, ?_⟩
  · intro q hq
    rw [mem_recent_quakes] at hq
    linarith [hq.2]
  · intro q hq h
    rw [mem_recent_quakes]
    exact ⟨hq, by linarith⟩
  · cases he : (recent_quakes now minutes_back quakes).isEmpty
    · rw [plot_earthquakes_with_clusters_of_ne near now minutes_back quakes he]
      exact List.length_map _ _
    · rw [plot_earthquakes_with_clusters_of_empty near now minutes_back quakes he]

/-- Concrete run of process_message: the stale quake stays in the buffer
unchanged while the new quake is appended and labelled. -/
theorem eval_process_stale_fresh :
    process_message nearAll 100 [staleQuake] freshMsg =
      [staleQuake, { freshQuake with cluster := some (-1) }] := by
  have h1 : process_message nearAll 100 [staleQuake] freshMsg =
      plot_earthquakes_with_clusters nearAll 100 ROLLING_MINUTES
        [staleQuake, freshQuake] := rfl
  rw [h1]
  have hrec : recent_quakes 100 ROLLING_MINUTES [staleQuake, freshQuake] =
      [freshQuake] := by
    norm_num [recent_quakes, ROLLING_MINUTES, staleQuake, freshQuake]
  have hne : (recent_quakes 100 ROLLING_MINUTES [staleQuake, freshQuake]).isEmpty
      = false := by
    rw [hrec]
    rfl
  rw [plot_earthquakes_with_clusters_of_ne nearAll 100 ROLLING_MINUTES
    [staleQuake, freshQuake] hne, hrec]
  have hc1 : decide ((100 : ℚ) - ROLLING_MINUTES ≤ staleQuake.timestamp) = false := by
    norm_num [ROLLING_MINUTES, staleQuake]
  have hc2 : decide ((100 : ℚ) - ROLLING_MINUTES ≤ freshQuake.timestamp) = true := by
    norm_num [ROLLING_MINUTES, freshQuake]
  simp only [List.map_cons, List.map_nil, hc1, hc2]
  decide

/-- Counterexample to C1 as stated: after a full driver pass the buffer still
contains an event strictly older than the window. -/
theorem C1_counterexample :
    staleQuake ∈ process_message nearAll 100 [staleQuake] freshMsg ∧
      ¬ (100 - staleQuake.timestamp ≤ ROLLING_MINUTES) := by
  constructor
  · rw [eval_process_stale_fresh]
    exact List.mem_cons_self _ _
  · norm_num [staleQuake, ROLLING_MINUTES]

/-- Witness for the amended C1 at a concrete input. -/
theorem C1_window_view_witness : (100 : ℚ) - freshQuake.timestamp ≤ 90 :=
  (C1_window_view nearAll 100 90 [freshQuake]).1 freshQuake
    (by rw [mem_recent_quakes]
        exact ⟨List.mem_singleton_self _, by norm_num [freshQuake]⟩)

/-! ## Claim C9 -/

/-- C9: the live window is split into two disjoint regional sets (longitude
below -130 and latitude above 50 versus the rest) that together cover the
window, and clustering labels are computed on each regional list separately,
so every labelled record on one axis is a copy of a member of that region
only. -/
theorem C9_region_split (recent : List Quake) :
    main_quakes recent = recent.filter (fun q => !(isAK q)) ∧
      (∀ q, ¬(q ∈ ak_quakes recent ∧ q ∈ main_quakes recent)) ∧
      (∀ q ∈ recent, q ∈ ak_quakes recent ∨ q ∈ main_quakes recent) ∧
      (∀ near : Quake → Quake → Bool,
        ∀ r ∈ plot_quakes_on_axis near (main_quakes recent),
          ∃ q ∈ main_quakes recent, sameBase r q = true) ∧
      (∀ near : Quake → Quake → Bool,
        ∀ r ∈ plot_quakes_on_axis near (ak_quakes recent),
          ∃ q ∈ ak_quakes recent, sameBase r q = true) := by
  refine ⟨?_, ?_, ?_, ?_, ?_⟩
  · unfold main_quakes
    apply List.filter_congr
    intro q hq
    cases hak : isAK q
    · have hnm : q ∉ ak_quakes recent := by
        intro hmem
        rw [mem_ak_quakes] at hmem
        rw [hmem.2] at hak
        exact Bool.noConfusion hak
      simp [hnm]
    · have hm : q ∈ ak_quakes recent := (mem_ak_quakes recent q).mpr ⟨hq, hak⟩
      simp [hm]
  · rintro q ⟨hak, hmain⟩
    rw [mem_main_quakes] at hmain
    exact hmain.2 hak
  · intro q hq
    by_cases h : q ∈ ak_quakes recent
    · exact Or.inl h
    · exact Or.inr ((mem_main_quakes recent q).mpr ⟨hq, h⟩)
  · intro near r hr
    exact plot_quakes_on_axis_base near _ r hr
  · intro near r hr
    exact plot_quakes_on_axis_base near _ r hr

/-- Witness for C9 at a concrete input: a window member lands in one of the
two regional sets. -/
theorem C9_region_split_witness :
    freshQuake ∈ ak_quakes [freshQuake] ∨ freshQuake ∈ main_quakes [freshQuake] :=
  (C9_region_split [freshQuake]).2.2.1 freshQuake (List.mem_singleton_self _)

/-! ## Claims C6 and C3 -/

/-- The pass never changes the number of buffered quakes. -/
theorem plot_earthquakes_with_clusters_length (near : Quake → Quake → Bool)
    (now minutes_back : ℚ) (quakes : List Quake) :
    (plot_earthquakes_with_clusters near now minutes_back quakes).length =
      quakes.length := by
  cases he : (recent_quakes now minutes_back quakes).isEmpty
  · rw [plot_earthquakes_with_clusters_of_ne near now minutes_back quakes he]
    exact List.length_map _ _
  · rw [plot_earthquakes_with_clusters_of_empty near now minutes_back quakes he]

/-- C6: every inbound message is handled; the processing either leaves the
buffer unchanged or appends exactly the new quake and runs the pass, and a
message failing validation (invalid JSON, missing or falsy coordinates or
magnitude, unindexable coordinate list) always leaves the buffer unchanged. -/
theorem C6_invalid_dropped (near : Quake → Quake → Bool) (now : ℚ)
    (buf : List Quake) (msg : Msg) :
    (process_message near now buf msg = buf ∨
      ∃ q : Quake, process_message near now buf msg =
        plot_earthquakes_with_clusters near now ROLLING_MINUTES (buf ++ [q])) ∧
      (failsValidation msg = true → process_message near now buf msg = buf) := by
  cases msg with
  | invalid => exact ⟨Or.inl rfl, fun _ => rfl⟩
  | record coordinates mag place =>
    cases coordinates with
    | none => exact ⟨Or.inl rfl, fun _ => rfl⟩
    | some l =>
      cases mag with
      | none => exact ⟨Or.inl rfl, fun _ => rfl⟩
      | some m =>
        have heq : process_message near now buf (Msg.record (some l) (some m) place) =
            if l.isEmpty then buf
            else if m = 0 then buf
            else if h : 2 ≤ l.length then
              plot_earthquakes_with_clusters near now ROLLING_MINUTES
                (buf ++ [{ lon := l.get ⟨0, by omega⟩, lat := l.get ⟨1, by omega⟩,
                           mag := m, place := place.getD "", timestamp := now,
                           cluster := none }])
            else buf := rfl
        rw [heq]
        constructor
        · split_ifs with h1 h2 h3
          · exact Or.inl rfl
          · exact Or.inl rfl
          · exact Or.inr ⟨_, rfl⟩
          · exact Or.inl rfl
        · intro hfail
          simp only [failsValidation, Bool.or_eq_true, decide_eq_true_eq] at hfail
          split_ifs with h1 h2 h3
          · rfl
          · rfl
          · exfalso
            rcases hfail with (hfail | hfail) | hfail
            · exact h1 hfail
            · exact h2 hfail
            · omega
          · rfl

/-- Witness for C6: the magnitude-zero record is dropped with the buffer
left unchanged. -/
theorem C6_invalid_dropped_witness :
    process_message nearAll 100 [] magZeroMsg = [] :=
  (C6_invalid_dropped nearAll 100 [] magZeroMsg).2 (by decide)

/-- C3 amended: a record with a coordinate pair and a nonzero magnitude
validates into a quake with lon = coordinates[0], lat = coordinates[1], the
given magnitude, and the processing time as timestamp; the quake is appended
to the buffer before the pass runs, growing the buffer by one. -/
theorem C3_validation (near : Quake → Quake → Bool) (now : ℚ) (buf : List Quake)
    (l : List ℚ) (m : ℚ) (p : Option String)
    (hl : l.length = 2) (hm : m ≠ 0) :
    ∃ q : Quake,
      l[0]? = some q.lon ∧ l[1]? = some q.lat ∧ q.mag = m ∧
        q.timestamp = now ∧ q.place = p.getD "" ∧ q.cluster = none ∧
        process_message near now buf (Msg.record (some l) (some m) p) =
          plot_earthquakes_with_clusters near now ROLLING_MINUTES (buf ++ [q]) ∧
        (process_message near now buf (Msg.record (some l) (some m) p)).length =
          buf.length + 1 := by
  have hle : l.isEmpty = false := by
    cases l with
    | nil => simp at hl
    | cons a t => rfl
  have h2 : 2 ≤ l.length := by omega
  have h0 : 0 < l.length := by omega
  have h1 : 1 < l.length := by omega
  have hproc : process_message near now buf (Msg.record (some l) (some m) p) =
      plot_earthquakes_with_clusters near now ROLLING_MINUTES
        (buf ++ [{ lon := l.get ⟨0, h0⟩, lat := l.get ⟨1, h1⟩, mag := m,
                   place := p.getD "", timestamp := now, cluster := none }]) := by
    have heq : process_message near now buf (Msg.record (some l) (some m) p) =
        if l.isEmpty then buf
        else if m = 0 then buf
        else if h : 2 ≤ l.length then
          plot_earthquakes_with_clusters near now ROLLING_MINUTES
            (buf ++ [{ lon := l.get ⟨0, by omega⟩, lat := l.get ⟨1, by omega⟩,
                       mag := m, place := p.getD "", timestamp := now,
                       cluster := none }])
        else buf := rfl
    rw [heq, if_neg (by simp [hle]), if_neg hm, dif_pos h2]
  refine ⟨{ lon := l.get ⟨0, h0⟩, lat := l.get ⟨1, h1⟩, mag := m,
            place := p.getD "", timestamp := now, cluster := none },
    ?_, ?_, rfl, rfl, rfl, rfl, hproc, ?_⟩
  · rw [List.getElem?_eq_getElem h0]
    rfl
  · rw [List.getElem?_eq_getElem h1]
    rfl
  · rw [hproc, plot_earthquakes_with_clusters_length]
    simp

/-- Witness for the amended C3 at a concrete record. -/
theorem C3_validation_witness :
    ∃ q : Quake,
      ([(-118 : ℚ), 34])[0]? = some q.lon ∧ ([(-118 : ℚ), 34])[1]? = some q.lat ∧
        q.mag = 4 ∧ q.timestamp = 100 ∧ q.place = (none : Option String).getD "" ∧
        q.cluster = none ∧
        process_message nearAll 100 [] (Msg.record (some [-118, 34]) (some 4) none) =
          plot_earthquakes_with_clusters nearAll 100 ROLLING_MINUTES ([] ++ [q]) ∧
        (process_message nearAll 100 []
            (Msg.record (some [-118, 34]) (some 4) none)).length =
          List.length ([] : List Quake) + 1 :=
  C3_validation nearAll 100 [] [-118, 34] 4 none rfl (by norm_num)

/-- Counterexample to C3 as stated: a record with a coordinate pair and
magnitude exactly 0 is dropped by the truthiness check instead of being
appended. -/
theorem C3_counterexample :
    hasPairAndMag magZeroMsg ∧ process_message nearAll 100 [] magZeroMsg = [] := by
  constructor
  · show ([(10 : ℚ), 20]).length = 2
    rfl
  · rfl

/-! ## Claim C5 -/

/-- The haversine distance is nonnegative. -/
theorem haversineKm_nonneg (a1 b1 a2 b2 : ℝ) : 0 ≤ haversineKm a1 b1 a2 b2 := by
  unfold haversineKm
  have h := Real.arcsin_nonneg.mpr (Real.sqrt_nonneg
    (Real.sin ((radiansOf a2 - radiansOf a1) / 2) ^ 2 +
      Real.cos (radiansOf a1) * Real.cos (radiansOf a2) *
        Real.sin ((radiansOf b2 - radiansOf b1) / 2) ^ 2))
  nlinarith

/-- The seed of a max-fold bounds the fold from below. -/
theorem le_foldl_max (a : ℝ) (ys : List ℝ) : a ≤ ys.foldl max a := by
  induction ys generalizing a with
  | nil => exact le_refl a
  | cons y ys ih => exact le_trans (le_max_left a y) (ih (max a y))

/-- Every listed value bounds a max-fold from below. -/
theorem mem_le_foldl_max (ys : List ℝ) (a : ℝ) : ∀ y ∈ ys, y ≤ ys.foldl max a := by
  induction ys generalizing a with
  | nil =>
    intro y hy
    simp at hy
  | cons z zs ih =>
    intro y hy
    rcases List.mem_cons.mp hy with h | h
    · subst h
      exact le_trans (le_max_right a y) (le_foldl_max (max a y) zs)
    · exact ih (max a z) y h

/-- A max-fold returns its seed or a listed value. -/
theorem foldl_max_attained (ys : List ℝ) (a : ℝ) :
    ys.foldl max a = a ∨ ys.foldl max a ∈ ys := by
  induction ys generalizing a with
  | nil => exact Or.inl rfl
  | cons z zs ih =>
    rw [List.foldl_cons]
    rcases ih (max a z) with h | h
    · rcases max_choice a z with he | he
      · exact Or.inl (h.trans he)
      · rw [h.trans he]
        exact Or.inr (List.mem_cons_self z zs)
    · exact Or.inr (List.mem_cons_of_mem z h)

/-- C5: the covering radius equals the maximum great-circle distance from the
centroid to a member scaled by 1.2 (the maximum is attained at some member),
and consequently every member is within coveringRadiusMeters / 1000 km of the
centroid. -/
theorem C5_covering_radius (members : List Quake) (hne : members ≠ []) :
    coveringRadiusMeters members = (max_dist_km members * 1.2) * 1000 ∧
      (∃ r ∈ members, max_dist_km members = dist_to_centroid members r) ∧
      ∀ q ∈ members, dist_to_centroid members q ≤
        coveringRadiusMeters members / 1000 := by
  obtain ⟨q, qs, rfl⟩ := List.exists_cons_of_ne_nil hne
  have hbound : ∀ r ∈ q :: qs,
      dist_to_centroid (q :: qs) r ≤ max_dist_km (q :: qs) := by
    intro r hr
    rcases List.mem_cons.mp hr with h | h
    · subst h
      exact le_foldl_max _ _
    · exact mem_le_foldl_max _ _ _
        (List.mem_map.mpr ⟨r, h, rfl⟩)
  refine ⟨rfl, ?_, ?_⟩
  · rcases foldl_max_attained ((qs.map (dist_to_centroid (q :: qs))))
      (dist_to_centroid (q :: qs) q) with h | h
    · exact ⟨q, List.mem_cons_self q qs, h⟩
    · obtain ⟨r, hr, hd⟩ := List.mem_map.mp h
      exact ⟨r, List.mem_cons_of_mem q hr, hd.symm⟩
  · intro r hr
    have h1 := hbound r hr
    have h2 : 0 ≤ max_dist_km (q :: qs) :=
      le_trans (haversineKm_nonneg _ _ _ _) (hbound q (List.mem_cons_self q qs))
    have h3 : coveringRadiusMeters (q :: qs) / 1000 = max_dist_km (q :: qs) * 1.2 := by
      unfold coveringRadiusMeters
      ring
    rw [h3]
    nlinarith

/-- Witness for C5 on a concrete singleton cluster. -/
theorem C5_covering_radius_witness :
    coveringRadiusMeters [freshQuake] = (max_dist_km [freshQuake] * 1.2) * 1000 ∧
      (∃ r ∈ [freshQuake], max_dist_km [freshQuake] =
        dist_to_centroid [freshQuake] r) ∧
      ∀ q ∈ [freshQuake], dist_to_centroid [freshQuake] q ≤
        coveringRadiusMeters [freshQuake] / 1000 :=
  C5_covering_radius [freshQuake] (by simp)

/-! ## Claim C7 -/

/-- The haversine distance of a point to itself is zero. -/
theorem haversineKm_self (lat lon : ℝ) : haversineKm lat lon lat lon = 0 := by
  unfold haversineKm
  simp

/-- The haversine distance is symmetric. -/
theorem haversineKm_comm (a1 b1 a2 b2 : ℝ) :
    haversineKm a1 b1 a2 b2 = haversineKm a2 b2 a1 b1 := by
  unfold haversineKm
  have e1 : Real.sin ((radiansOf a2 - radiansOf a1) / 2) ^ 2 =
      Real.sin ((radiansOf a1 - radiansOf a2) / 2) ^ 2 := by
    have h : (radiansOf a2 - radiansOf a1) / 2 =
        -((radiansOf a1 - radiansOf a2) / 2) := by ring
    rw [h, Real.sin_neg]
    ring
  have e2 : Real.sin ((radiansOf b2 - radiansOf b1) / 2) ^ 2 =
      Real.sin ((radiansOf b1 - radiansOf b2) / 2) ^ 2 := by
    have h : (radiansOf b2 - radiansOf b1) / 2 =
        -((radiansOf b1 - radiansOf b2) / 2) := by ring
    rw [h, Real.sin_neg]
    ring
  rw [e1, e2, mul_comm (Real.cos (radiansOf a1)) (Real.cos (radiansOf a2))]

/-- A latitude strictly between the poles has positive cosine in radians. -/
theorem cos_radiansOf_pos {a : ℝ} (h1 : -90 < a) (h2 : a < 90) :
    0 < Real.cos (radiansOf a) := by
  apply Real.cos_pos_of_mem_Ioo
  constructor
  · show -(Real.pi / 2) < radiansOf a
    unfold radiansOf
    nlinarith [mul_pos Real.pi_pos (show (0:ℝ) < a + 90 by linarith)]
  · show radiansOf a < Real.pi / 2
    unfold radiansOf
    nlinarith [mul_pos Real.pi_pos (show (0:ℝ) < 90 - a by linarith)]

/-- For latitudes strictly between the poles and longitudes in the canonical
half-open range, the haversine distance vanishes exactly on equal coordinate
pairs. -/
theorem haversineKm_eq_zero_iff {a1 b1 a2 b2 : ℝ}
    (ha1 : -90 < a1) (ha1' : a1 < 90) (ha2 : -90 < a2) (ha2' : a2 < 90)
    (hb1 : -180 < b1) (hb1' : b1 ≤ 180) (hb2 : -180 < b2) (hb2' : b2 ≤ 180) :
    haversineKm a1 b1 a2 b2 = 0 ↔ a1 = a2 ∧ b1 = b2 := by
  constructor
  · intro h
    unfold haversineKm at h
    have harc : Real.arcsin (Real.sqrt
        (Real.sin ((radiansOf a2 - radiansOf a1) / 2) ^ 2 +
          Real.cos (radiansOf a1) * Real.cos (radiansOf a2) *
            Real.sin ((radiansOf b2 - radiansOf b1) / 2) ^ 2)) = 0 := by
      linarith
    have hsqrt : Real.sqrt
        (Real.sin ((radiansOf a2 - radiansOf a1) / 2) ^ 2 +
          Real.cos (radiansOf a1) * Real.cos (radiansOf a2) *
            Real.sin ((radiansOf b2 - radiansOf b1) / 2) ^ 2) = 0 := by
      by_contra hne
      have hpos : 0 < Real.sqrt
          (Real.sin ((radiansOf a2 - radiansOf a1) / 2) ^ 2 +
            Real.cos (radiansOf a1) * Real.cos (radiansOf a2) *
              Real.sin ((radiansOf b2 - radiansOf b1) / 2) ^ 2) :=
        lt_of_le_of_ne (Real.sqrt_nonneg _) (Ne.symm hne)
      have h2 := Real.arcsin_pos.mpr hpos
      linarith
    have hEle : Real.sin ((radiansOf a2 - radiansOf a1) / 2) ^ 2 +
        Real.cos (radiansOf a1) * Real.cos (radiansOf a2) *
          Real.sin ((radiansOf b2 - radiansOf b1) / 2) ^ 2 ≤ 0 :=
      Real.sqrt_eq_zero'.mp hsqrt
    have hcos1 := cos_radiansOf_pos ha1 ha1'
    have hcos2 := cos_radiansOf_pos ha2 ha2'
    have ht1 : (0:ℝ) ≤ Real.sin ((radiansOf a2 - radiansOf a1) / 2) ^ 2 :=
      sq_nonneg _
    have ht2 : (0:ℝ) ≤ Real.cos (radiansOf a1) * Real.cos (radiansOf a2) *
        Real.sin ((radiansOf b2 - radiansOf b1) / 2) ^ 2 :=
      mul_nonneg (mul_nonneg hcos1.le hcos2.le) (sq_nonneg _)
    have hs1 : Real.sin ((radiansOf a2 - radiansOf a1) / 2) = 0 := by
      have hsq : Real.sin ((radiansOf a2 - radiansOf a1) / 2) ^ 2 = 0 := by
        linarith
      exact pow_eq_zero_iff (by norm_num : (2:ℕ) ≠ 0) |>.mp hsq
    have hs2 : Real.sin ((radiansOf b2 - radiansOf b1) / 2) = 0 := by
      have hsq : Real.sin ((radiansOf b2 - radiansOf b1) / 2) ^ 2 = 0 := by
        nlinarith [mul_pos hcos1 hcos2,
          sq_nonneg (Real.sin ((radiansOf b2 - radiansOf b1) / 2))]
      exact pow_eq_zero_iff (by norm_num : (2:ℕ) ≠ 0) |>.mp hsq
    have harg1 : (radiansOf a2 - radiansOf a1) / 2 = (a2 - a1) * Real.pi / 360 := by
      unfold radiansOf
      ring
    have harg2 : (radiansOf b2 - radiansOf b1) / 2 = (b2 - b1) * Real.pi / 360 := by
      unfold radiansOf
      ring
    rw [harg1] at hs1
    rw [harg2] at hs2
    have hpi := Real.pi_pos
    have hpine := Real.pi_ne_zero
    have ha : a1 = a2 := by
      have hlo : -Real.pi < (a2 - a1) * Real.pi / 360 := by
        nlinarith [mul_pos Real.pi_pos (show (0:ℝ) < a2 - a1 + 360 by linarith)]
      have hhi : (a2 - a1) * Real.pi / 360 < Real.pi := by
        nlinarith [mul_pos Real.pi_pos (show (0:ℝ) < 360 - (a2 - a1) by linarith)]
      have hz := (Real.sin_eq_zero_iff_of_lt_of_lt hlo hhi).mp hs1
      have hz' : (a2 - a1) * Real.pi = 0 := by linarith
      rcases mul_eq_zero.mp hz' with hh | hh
      · have := sub_eq_zero.mp hh
        linarith
      · exact absurd hh hpine
    have hb : b1 = b2 := by
      have hlo : -Real.pi < (b2 - b1) * Real.pi / 360 := by
        nlinarith [mul_pos Real.pi_pos (show (0:ℝ) < b2 - b1 + 360 by linarith)]
      have hhi : (b2 - b1) * Real.pi / 360 < Real.pi := by
        nlinarith [mul_pos Real.pi_pos (show (0:ℝ) < 360 - (b2 - b1) by linarith)]
      have hz := (Real.sin_eq_zero_iff_of_lt_of_lt hlo hhi).mp hs2
      have hz' : (b2 - b1) * Real.pi = 0 := by linarith
      rcases mul_eq_zero.mp hz' with hh | hh
      · have := sub_eq_zero.mp hh
        linarith
      · exact absurd hh hpine
    exact ⟨ha, hb⟩
  · rintro ⟨rfl, rfl⟩
    exact haversineKm_self a1 b1

/-- Two points one degree apart along the equator are about 111.2 km apart. -/
theorem haversineKm_equator : |haversineKm 0 0 0 1 - 111.2| < 0.05 := by
  have hpi := Real.pi_pos
  have h : haversineKm 0 0 0 1 = 6371.0088 * Real.pi / 180 := by
    unfold haversineKm
    have h0 : radiansOf 0 = 0 := by
      unfold radiansOf
      ring
    have h1 : (radiansOf 1 - radiansOf 0) / 2 = Real.pi / 360 := by
      unfold radiansOf
      ring
    rw [h1, h0]
    simp only [sub_self, zero_div, Real.sin_zero, Real.cos_zero, one_mul,
      ne_eq, OfNat.ofNat_ne_zero, not_false_eq_true, zero_pow, zero_add]
    have hsn : 0 ≤ Real.sin (Real.pi / 360) := by
      apply Real.sin_nonneg_of_nonneg_of_le_pi
      · linarith
      · linarith
    rw [Real.sqrt_sq hsn, Real.arcsin_sin (by linarith) (by linarith)]
    ring
  rw [h, abs_lt]
  have hgt := Real.pi_gt_d6
  have hlt := Real.pi_lt_d6
  constructor
  · nlinarith
  · nlinarith

/-- C7 amended: the haversine distance satisfies distance(a,a) = 0 and
symmetry for all coordinate pairs; it vanishes exactly on equal pairs
provided latitudes are strictly between -90 and 90 and longitudes lie in
(-180, 180]; and two points one degree apart along the equator are about
111.2 km apart. -/
theorem C7_distance_properties :
    (∀ a b : ℝ, haversineKm a b a b = 0) ∧
      (∀ a1 b1 a2 b2 : ℝ, haversineKm a1 b1 a2 b2 = haversineKm a2 b2 a1 b1) ∧
      (∀ a1 b1 a2 b2 : ℝ, -90 < a1 → a1 < 90 → -90 < a2 → a2 < 90 →
        -180 < b1 → b1 ≤ 180 → -180 < b2 → b2 ≤ 180 →
        (haversineKm a1 b1 a2 b2 = 0 ↔ a1 = a2 ∧ b1 = b2)) ∧
      |haversineKm 0 0 0 1 - 111.2| < 0.05 := by
  refine ⟨haversineKm_self, haversineKm_comm, ?_, haversineKm_equator⟩
  intro a1 b1 a2 b2 ha1 ha1' ha2 ha2' hb1 hb1' hb2 hb2'
  exact haversineKm_eq_zero_iff ha1 ha1' ha2 ha2' hb1 hb1' hb2 hb2'

/-- Counterexample to C7 as stated: two distinct coordinate pairs at the
north pole have haversine distance zero. -/
theorem C7_counterexample :
    haversineKm 90 0 90 10 = 0 ∧
      ((90 : ℝ), (0 : ℝ)) ≠ ((90 : ℝ), (10 : ℝ)) := by
  constructor
  · unfold haversineKm
    have h90 : radiansOf 90 = Real.pi / 2 := by
      unfold radiansOf
      ring
    rw [h90, Real.cos_pi_div_two]
    simp
  · intro h
    have h2 := congrArg Prod.snd h
    norm_num at h2

/-- Witness for the amended C7 at a concrete in-range pair. -/
theorem C7_distance_properties_witness :
    haversineKm 10 20 10 20 = 0 ↔ (10 : ℝ) = 10 ∧ (20 : ℝ) = 20 :=
  C7_distance_properties.2.2.1 10 20 10 20 (by norm_num) (by norm_num)
    (by norm_num) (by norm_num) (by norm_num) (by norm_num) (by norm_num)
    (by norm_num)
